import Mathlib

/-!
# Verification of the CSS selector builder (`src/05-objects-tasks.js`)

Shallow embedding of the `CssBuilder` class, the `cssSelectorBuilder`
facade, and the `Rectangle` / `getJSON` / `fromJSON` utilities.

JavaScript objects used as string-keyed records (`this.selectors`) are
modelled as insertion-ordered association lists; JS `throw` is modelled
with `Except`; JS numbers (used here only as integers) are modelled as
`Int`.
-/

set_option maxHeartbeats 1000000

namespace CoreJs101

/-- The six selector-fragment kinds, exactly the strings of the source's
`this.names = ['element', 'id', 'class', 'attr', 'pseudoClass', 'pseudoElement']`. -/
inductive SelName where
  | element
  | id
  | «class»
  | attr
  | pseudoClass
  | pseudoElement
deriving DecidableEq, Repr, Fintype

/-- The canonical kind order: source field `this.names`. -/
def names : List SelName :=
  [.element, .id, .«class», .attr, .pseudoClass, .pseudoElement]

/-- Canonical position of a kind, i.e. its index in `names`. -/
def SelName.idx : SelName → Nat
  | .element => 0
  | .id => 1
  | .«class» => 2
  | .attr => 3
  | .pseudoClass => 4
  | .pseudoElement => 5

/-- Whether the kind is singular (stored as one string in the source) as
opposed to repeatable (stored as an array the source pushes onto). -/
def SelName.singular : SelName → Bool
  | .element => true
  | .id => true
  | .pseudoElement => true
  | _ => false

/-- A value stored in `this.selectors`: the source stores a plain string
for `element`/`id`/`pseudoElement` and an array of strings for
`class`/`attr`/`pseudoClass`. -/
inductive SelVal where
  | single (s : String)
  | multi (ss : List String)
deriving DecidableEq, Repr

/-- The errors the source throws.  `repeatError` and `positionError` carry
the two fixed messages of the constructor; `typeError` stands for the
runtime `TypeError` JS would raise on `.push` of a non-array (unreachable
through the public API). -/
inductive CssError where
  | repeatError
  | positionError
  | typeError
deriving DecidableEq, Repr

/-- Source message `this.repeatError`. -/
def repeatErrorMsg : String :=
  "Element, id and pseudo-element should not occur more then one time inside the selector"

/-- Source message `this.positionError`. -/
def positionErrorMsg : String :=
  "Selector parts should be arranged in the following order: element, id, class, attribute, pseudo-class, pseudo-element"

/-- State of a `CssBuilder` instance: `selectors` is the insertion-ordered
string-keyed record `this.selectors`, `complex` the array `this.complex`,
`combinationString` the (never read) field `this.combinationString`. -/
structure CssBuilder where
  selectors : List (SelName × SelVal) := []
  complex : List String := []
  combinationString : String := ""
deriving DecidableEq, Repr

namespace CssBuilder

/-- `new CssBuilder()`. -/
def empty : CssBuilder := {}

/-- `Object.prototype.hasOwnProperty.call(selectors, k)`. -/
def hasKey (selectors : List (SelName × SelVal)) (k : SelName) : Bool :=
  selectors.any (fun p => p.1 == k)

/-- `checkValue(string)`: throw `repeatError` if the key is already present. -/
def checkValue (b : CssBuilder) (k : SelName) : Except CssError Unit :=
  if hasKey b.selectors k then .error .repeatError else .ok ()

/-- The Boolean tested by `checkPosition()`, as a function of the key list
`Object.keys(this.selectors)` (insertion order): with
`currentPosition = names.filter(s => keys.includes(s))`, test
`keys.some((selector, index) => index > currentPosition.indexOf(selector))`. -/
def checkKeys (keys : List SelName) : Bool :=
  let currentPosition := names.filter (fun s => keys.contains s)
  keys.enum.any (fun p => currentPosition.indexOf p.2 < p.1)

/-- `checkPosition()`: throw `positionError` if the insertion order of the
keys disagrees with their canonical order. -/
def checkPosition (b : CssBuilder) : Except CssError Unit :=
  if checkKeys (b.selectors.map Prod.fst) then .error .positionError else .ok ()

/-- `isSelector(string)`: initialise the key with an empty array if absent
(new keys are appended at the end of the record, as in JS). -/
def isSelector (selectors : List (SelName × SelVal)) (k : SelName) :
    List (SelName × SelVal) :=
  if hasKey selectors k then selectors else selectors ++ [(k, .multi [])]

/-- `this.selectors[k].push(frag)`: append to the stored array in place;
a stored non-array would make JS raise a `TypeError`. -/
def pushFrag (selectors : List (SelName × SelVal)) (k : SelName) (frag : String) :
    Except CssError (List (SelName × SelVal)) :=
  selectors.mapM (fun p =>
    if p.1 == k then
      match p.2 with
      | .multi ss => .ok (p.1, SelVal.multi (ss ++ [frag]))
      | .single _ => .error .typeError
    else .ok p)

/-- `element(value)`: `checkValue('element')`, store the literal tag text
(spread appends the new key at the end), `checkPosition()`, return `this`. -/
def element (b : CssBuilder) (value : String) : Except CssError CssBuilder := do
  checkValue b .element
  let b := { b with selectors := b.selectors ++ [(.element, .single value)] }
  checkPosition b
  return b

/-- `id(value)`: like `element` but stores `'#' + value`. -/
def id (b : CssBuilder) (value : String) : Except CssError CssBuilder := do
  checkValue b .id
  let b := { b with selectors := b.selectors ++ [(.id, .single ("#" ++ value))] }
  checkPosition b
  return b

/-- `class(value)`: `isSelector('class')`, push `'.' + value`,
`checkPosition()`, return `this`. -/
def «class» (b : CssBuilder) (value : String) : Except CssError CssBuilder := do
  let sel := isSelector b.selectors .«class»
  let sel ← pushFrag sel .«class» ("." ++ value)
  let b := { b with selectors := sel }
  checkPosition b
  return b

/-- `attr(value)`: push `'[' + value + ']'`. -/
def attr (b : CssBuilder) (value : String) : Except CssError CssBuilder := do
  let sel := isSelector b.selectors .attr
  let sel ← pushFrag sel .attr ("[" ++ value ++ "]")
  let b := { b with selectors := sel }
  checkPosition b
  return b

/-- `pseudoClass(value)`: push `':' + value`. -/
def pseudoClass (b : CssBuilder) (value : String) : Except CssError CssBuilder := do
  let sel := isSelector b.selectors .pseudoClass
  let sel ← pushFrag sel .pseudoClass (":" ++ value)
  let b := { b with selectors := sel }
  checkPosition b
  return b

/-- `pseudoElement(value)`: like `element` but stores `'::' + value`. -/
def pseudoElement (b : CssBuilder) (value : String) : Except CssError CssBuilder := do
  checkValue b .pseudoElement
  let b := { b with selectors := b.selectors ++ [(.pseudoElement, .single ("::" ++ value))] }
  checkPosition b
  return b

/-- The fragments a stored value contributes to `Object.values(...).flat()`:
a string stays as one element, an array is spliced. -/
def valueFrags : SelVal → List String
  | .single s => [s]
  | .multi ss => ss

/-- `stringify()`: if `this.complex` is non-empty, `complex.flat().join('')`;
otherwise `Object.values(this.selectors).flat().join('')`. -/
def stringify (b : CssBuilder) : String :=
  if b.complex.length > 0 then String.join b.complex
  else String.join ((b.selectors.map (fun p => valueFrags p.2)).flatten)

/-- `combine(item1, combination, item2)`: push the eagerly rendered text
`` `${item1.stringify()} ${combination} ${item2.stringify()}` `` onto
`this.complex` and return `this`. -/
def combine (b : CssBuilder) (item1 : CssBuilder) (combination : String)
    (item2 : CssBuilder) : CssBuilder :=
  { b with complex :=
      b.complex ++ [item1.stringify ++ " " ++ combination ++ " " ++ item2.stringify] }

end CssBuilder

/-! The `cssSelectorBuilder` facade: each entry constructs a fresh
`CssBuilder` and forwards the call. -/

namespace cssSelectorBuilder

/-- `cssSelectorBuilder.element(value)`. -/
def element (value : String) : Except CssError CssBuilder :=
  CssBuilder.empty.element value

/-- `cssSelectorBuilder.id(value)`. -/
def id (value : String) : Except CssError CssBuilder :=
  CssBuilder.empty.id value

/-- `cssSelectorBuilder.class(value)`. -/
def «class» (value : String) : Except CssError CssBuilder :=
  CssBuilder.empty.«class» value

/-- `cssSelectorBuilder.attr(value)`. -/
def attr (value : String) : Except CssError CssBuilder :=
  CssBuilder.empty.attr value

/-- `cssSelectorBuilder.pseudoClass(value)`. -/
def pseudoClass (value : String) : Except CssError CssBuilder :=
  CssBuilder.empty.pseudoClass value

/-- `cssSelectorBuilder.pseudoElement(value)`. -/
def pseudoElement (value : String) : Except CssError CssBuilder :=
  CssBuilder.empty.pseudoElement value

/-- `cssSelectorBuilder.combine(item1, combination, item2)`. -/
def combine (item1 : CssBuilder) (combination : String) (item2 : CssBuilder) :
    CssBuilder :=
  CssBuilder.empty.combine item1 combination item2

end cssSelectorBuilder

/-! Fragment-insertion instructions, used to quantify over call sequences
on one builder. -/

/-- One fragment-adding call on a builder, with its argument. -/
inductive Frag where
  | element (v : String)
  | id (v : String)
  | «class» (v : String)
  | attr (v : String)
  | pseudoClass (v : String)
  | pseudoElement (v : String)
deriving DecidableEq, Repr

/-- The kind a call adds. -/
def Frag.kind : Frag → SelName
  | .element _ => .element
  | .id _ => .id
  | .«class» _ => .«class»
  | .attr _ => .attr
  | .pseudoClass _ => .pseudoClass
  | .pseudoElement _ => .pseudoElement

/-- The rendered text the source stores for the call. -/
def Frag.rendered : Frag → String
  | .element v => v
  | .id v => "#" ++ v
  | .«class» v => "." ++ v
  | .attr v => "[" ++ v ++ "]"
  | .pseudoClass v => ":" ++ v
  | .pseudoElement v => "::" ++ v

/-- Dispatch one fragment call on a builder. -/
def step (b : CssBuilder) : Frag → Except CssError CssBuilder
  | .element v => b.element v
  | .id v => b.id v
  | .«class» v => b.«class» v
  | .attr v => b.attr v
  | .pseudoClass v => b.pseudoClass v
  | .pseudoElement v => b.pseudoElement v

/-- Run a sequence of fragment calls on one fresh builder. -/
def run (fs : List Frag) : Except CssError CssBuilder :=
  fs.foldlM step CssBuilder.empty

/-- Number of calls in `fs` adding kind `k`. -/
def countKind (fs : List Frag) (k : SelName) : Nat :=
  (fs.filter (fun f => f.kind == k)).length

/-- `fs` mentions kind `k`. -/
def presentB (fs : List Frag) (k : SelName) : Bool :=
  fs.any (fun f => f.kind == k)

/-- A call sequence respects the canonical kind order and repeats no
singular kind: kinds are non-decreasing in canonical position and
`element`, `id`, `pseudoElement` each occur at most once. -/
def ValidSeq (fs : List Frag) : Prop :=
  List.Sorted (· ≤ ·) (fs.map (fun f => f.kind.idx)) ∧
    ∀ k : SelName, k.singular → countKind fs k ≤ 1

instance : DecidablePred ValidSeq := fun _ => by
  unfold ValidSeq; infer_instance

/-- The stored record entry kind `k` ends up with after running `fs`. -/
def entryOf (k : SelName) (fs : List Frag) : SelVal :=
  if k.singular then
    .single ((((fs.filter (fun f => f.kind == k)).map Frag.rendered).head?).getD "")
  else
    .multi ((fs.filter (fun f => f.kind == k)).map Frag.rendered)

/-- The builder state a valid run produces: keys in canonical order
restricted to the kinds present, each mapped to its accumulated entry. -/
def buildOf (fs : List Frag) : CssBuilder :=
  { selectors :=
      (names.filter (fun k => presentB fs k)).map (fun k => (k, entryOf k fs)),
    complex := [],
    combinationString := "" }

/-- The rendering the specification describes: kinds in canonical order,
fragments of a repeatable kind in insertion order, no separators. -/
def canonicalRender (fs : List Frag) : String :=
  String.join (names.map (fun k =>
    String.join ((fs.filter (fun f => f.kind == k)).map Frag.rendered)))

/-- Common shape of `element`/`id`/`pseudoElement`: `checkValue`, store one
string under the key, `checkPosition`.  Each of the three methods is
definitionally an instance of this. -/
def CssBuilder.addSingle (b : CssBuilder) (k : SelName) (text : String) :
    Except CssError CssBuilder := do
  CssBuilder.checkValue b k
  let b := { b with selectors := b.selectors ++ [(k, .single text)] }
  CssBuilder.checkPosition b
  return b

/-- Common shape of `class`/`attr`/`pseudoClass`: `isSelector`, push one
rendered fragment, `checkPosition`.  Each of the three methods is
definitionally an instance of this. -/
def CssBuilder.addRepeat (b : CssBuilder) (k : SelName) (frag : String) :
    Except CssError CssBuilder := do
  let sel := CssBuilder.isSelector b.selectors k
  let sel ← CssBuilder.pushFrag sel k frag
  let b := { b with selectors := sel }
  CssBuilder.checkPosition b
  return b

/-! A heap of builder instances, to state independence of separate
builders: JS object references become indices into a list of states; each
method call reads and writes only its receiver (and reads the operands'
renderings in `combine`). -/

/-- One public API call on a heap of builders: a facade call creating a
fresh builder, a fragment method on builder `i`, or `combine` on builder
`i` with operand builders `l` and `r`. -/
inductive HOp where
  | fresh
  | frag (i : Nat) (f : Frag)
  | comb (i : Nat) (l : Nat) (t : String) (r : Nat)
deriving DecidableEq, Repr

/-- The builder an operation mutates (`none` for a facade creation). -/
def HOp.writeTarget : HOp → Option Nat
  | .fresh => none
  | .frag i _ => some i
  | .comb i _ _ _ => some i

/-- Apply one call to the heap: `fresh` appends a new empty builder,
`frag` dispatches the method on its receiver, `comb` pushes the combined
rendering onto its receiver.  A dangling index stands for the `TypeError`
JS raises on a method call of `undefined`. -/
def applyHOp (hp : List CssBuilder) : HOp → Except CssError (List CssBuilder)
  | .fresh => .ok (hp ++ [CssBuilder.empty])
  | .frag i f =>
    match hp[i]? with
    | some b => (step b f).map (fun b' => hp.set i b')
    | none => .error .typeError
  | .comb i l t r =>
    match hp[i]?, hp[l]?, hp[r]? with
    | some b, some bl, some br => .ok (hp.set i (b.combine bl t br))
    | _, _, _ => .error .typeError

/-- Run a sequence of public API calls starting from an empty heap. -/
def runHeap (ops : List HOp) : Except CssError (List CssBuilder) :=
  ops.foldlM applyHOp []

/-- The reference example of the source header: the nested `combine` call
chain, through the facade. -/
def combineExample : Except CssError String := do
  let e1 ← cssSelectorBuilder.element "div"
  let e1 ← e1.id "main"
  let e1 ← e1.«class» "container"
  let e1 ← e1.«class» "draggable"
  let e2 ← cssSelectorBuilder.element "table"
  let e2 ← e2.id "data"
  let e3 ← cssSelectorBuilder.element "tr"
  let e3 ← e3.pseudoClass "nth-of-type(even)"
  let e4 ← cssSelectorBuilder.element "td"
  let e4 ← e4.pseudoClass "nth-of-type(even)"
  let inner := cssSelectorBuilder.combine e3 " " e4
  let mid := cssSelectorBuilder.combine e2 "~" inner
  let outer := cssSelectorBuilder.combine e1 "+" mid
  return outer.stringify

/-! The `Rectangle` / `getJSON` / `fromJSON` utilities.  JS numbers (used
as integers here) are modelled as `Int`; a JS object with numeric fields
as an insertion-ordered association list; `undefined` as `none`. -/

/-- `function Rectangle(width, height)`: fields are `undefined` when the
constructor receives fewer positional arguments. -/
structure Rectangle where
  width : Option Int
  height : Option Int
deriving DecidableEq, Repr

/-- `Rectangle.prototype.getArea`: `this.width * this.height`, `none`
standing for the `NaN` produced when a field is `undefined`. -/
def Rectangle.getArea (r : Rectangle) : Option Int := do
  let w ← r.width
  let h ← r.height
  return w * h

/-- `new Rectangle(...values)`: positional spread application. -/
def Rectangle.construct (values : List Int) : Rectangle :=
  { width := values[0]?, height := values[1]? }

/-- A JS object with numeric fields, as passed to `getJSON`:
insertion-ordered keys. -/
structure JsObj where
  fields : List (String × Int)
deriving DecidableEq, Repr

/-- Decimal digit characters of a natural number, most significant first. -/
def natToDigitChars (n : Nat) : List Char :=
  if h : n < 10 then [Char.ofNat (48 + n)]
  else natToDigitChars (n / 10) ++ [Char.ofNat (48 + n % 10)]
decreasing_by exact Nat.div_lt_self (by omega) (by omega)

/-- Characters of the JSON rendering of an integer. -/
def intChars (n : Int) : List Char :=
  if n < 0 then '-' :: natToDigitChars n.natAbs else natToDigitChars n.toNat

/-- Characters of one `"key":value` member of a JSON object. -/
def fieldChars (kv : String × Int) : List Char :=
  '"' :: kv.1.data ++ '"' :: ':' :: intChars kv.2

/-- Comma-separated members of a JSON object. -/
def fieldsChars : List (String × Int) → List Char
  | [] => []
  | [kv] => fieldChars kv
  | kv :: rest => fieldChars kv ++ ',' :: fieldsChars rest

/-- `getJSON(obj) = JSON.stringify(obj)` for a flat object with numeric
fields: `{"k1":v1,"k2":v2}`. -/
def getJSON (obj : JsObj) : String :=
  String.mk ('{' :: fieldsChars obj.fields ++ ['}'])

/-- Accumulate decimal digit characters into a natural number. -/
def digitsToNat : List Char → Nat → Nat
  | [], acc => acc
  | c :: cs, acc => digitsToNat cs (acc * 10 + (c.toNat - 48))

/-- Parse a non-empty run of decimal digits. -/
def parseNatChars (cs : List Char) : Option (Nat × List Char) :=
  let ds := cs.takeWhile Char.isDigit
  if ds.isEmpty then none else some (digitsToNat ds 0, cs.dropWhile Char.isDigit)

/-- Parse a JSON integer, with optional leading minus sign. -/
def parseIntChars : List Char → Option (Int × List Char)
  | '-' :: rest => (parseNatChars rest).map (fun p => (-(p.1 : Int), p.2))
  | cs => (parseNatChars cs).map (fun p => ((p.1 : Int), p.2))

/-- Parse the members of a JSON object after its opening brace, up to and
including the closing brace; the fuel bounds the number of members. -/
def parseFields : Nat → List Char → Option (List (String × Int) × List Char)
  | fuel, cs =>
    match cs with
    | '}' :: rest => some ([], rest)
    | '"' :: rest =>
      match fuel with
      | 0 => none
      | fuel' + 1 =>
        let key := rest.takeWhile (· != '"')
        match rest.dropWhile (· != '"') with
        | '"' :: ':' :: rest2 =>
          match parseIntChars rest2 with
          | some (v, ',' :: rest3) =>
            (parseFields fuel' rest3).map (fun p => ((String.mk key, v) :: p.1, p.2))
          | some (v, '}' :: rest3) => some ([(String.mk key, v)], rest3)
          | _ => none
        | _ => none
    | _ => none

/-- `JSON.parse`, for the grammar fragment `getJSON` produces: a flat
object with integer fields. -/
def jsonParse (s : String) : Option JsObj :=
  match s.data with
  | '{' :: rest =>
    match parseFields rest.length rest with
    | some (fs, []) => some ⟨fs⟩
    | _ => none
  | _ => none

/-- `Object.values(obj)`: the field values in key insertion order. -/
def jsObjValues (obj : JsObj) : List Int :=
  obj.fields.map Prod.snd

/-- `fromJSON(proto, json)`: parse, take `Object.values`, and apply the
prototype's constructor positionally (`new proto.constructor(...values)`);
`none` models the `SyntaxError` of `JSON.parse` on malformed input. -/
def fromJSON (construct : List Int → α) (json : String) : Option α :=
  (jsonParse json).map (fun obj => construct (jsObjValues obj))

end CoreJs101

/-! ## Helper lemmas -/

namespace CoreJs101

open CssBuilder

theorem beq_iff_selName (a b : SelName) : (a == b) = true ↔ a = b := by
  exact beq_iff_eq

theorem idx_inj (a b : SelName) : a.idx = b.idx → a = b := by
  revert a b; decide

theorem mem_names (k : SelName) : k ∈ names := by
  cases k <;> decide

theorem map_fst_map_entry (l : List SelName) (e : SelName → SelVal) :
    ((l.map fun k => (k, e k)).map Prod.fst) = l := by
  induction l with
  | nil => rfl
  | cons x xs ih => simp only [List.map_cons, ih]

theorem hasKey_map_entry (l : List SelName) (e : SelName → SelVal) (k : SelName) :
    hasKey (l.map fun x => (x, e x)) k = l.any (fun x => x == k) := by
  induction l with
  | nil => rfl
  | cons x xs ih =>
    simp only [List.map_cons, hasKey, List.any_cons] at ih ⊢
    rw [ih]

theorem any_filter_beq : ∀ (p : SelName → Bool) (k : SelName),
    (names.filter p).any (fun x => x == k) = p k := by decide

theorem checkKeys_filter_names : ∀ (p : SelName → Bool),
    checkKeys (names.filter p) = false := by decide

theorem checkKeys_filter_append_bad : ∀ (p : SelName → Bool) (k : SelName),
    p k = false → (names.any fun x => p x && decide (k.idx < x.idx)) = true →
    checkKeys (names.filter p ++ [k]) = true := by decide

theorem checkKeys_filter_append_ok : ∀ (p : SelName → Bool) (k : SelName),
    p k = false → (names.all fun x => !p x || decide (x.idx < k.idx)) = true →
    checkKeys (names.filter p ++ [k]) = false := by decide

theorem filter_names_extend : ∀ (p : SelName → Bool) (k : SelName),
    p k = false → (names.all fun x => !p x || decide (x.idx < k.idx)) = true →
    names.filter (fun x => p x || x == k) = names.filter p ++ [k] := by decide

theorem hasKey_filter_map (p : SelName → Bool) (e : SelName → SelVal) (k : SelName) :
    hasKey ((names.filter p).map fun x => (x, e x)) k = p k := by
  rw [hasKey_map_entry, any_filter_beq]

end CoreJs101

namespace CoreJs101

open CssBuilder

theorem pushFrag_map_entry (l : List SelName) (e : SelName → SelVal) (k : SelName)
    (ss : List String) (frag : String) (he : e k = .multi ss) :
    pushFrag (l.map fun x => (x, e x)) k frag =
      .ok (l.map fun x => (x, if x == k then SelVal.multi (ss ++ [frag]) else e x)) := by
  induction l with
  | nil => rfl
  | cons x xs ih =>
    simp only [List.map_cons, pushFrag, List.mapM_cons] at ih ⊢
    by_cases hx : x = k
    · subst hx
      rw [he] at *
      simp only [beq_self_eq_true, if_true]
      rw [ih]
      rfl
    · have hbx : (x == k) = false := by simp [hx]
      simp only [hbx, Bool.false_eq_true, if_false]
      rw [ih]
      rfl

theorem pushFrag_append_new (l : List (SelName × SelVal)) (k : SelName) (frag : String)
    (h : ∀ q ∈ l, (q.1 == k) = false) :
    pushFrag (l ++ [(k, SelVal.multi [])]) k frag = .ok (l ++ [(k, SelVal.multi [frag])]) := by
  induction l with
  | nil =>
    simp only [List.nil_append, pushFrag, List.mapM_cons, List.mapM_nil,
      beq_self_eq_true, if_true]
    rfl
  | cons x xs ih =>
    have hx : (x.1 == k) = false := h x (List.mem_cons_self _ _)
    simp only [List.cons_append, pushFrag, List.mapM_cons] at ih ⊢
    rw [hx]
    simp only [Bool.false_eq_true, if_false]
    rw [ih (fun q hq => h q (List.mem_cons_of_mem _ hq))]
    rfl

theorem foldl_append_string (l : List String) (s : String) :
    List.foldl (· ++ ·) s l = s ++ List.foldl (· ++ ·) "" l := by
  induction l generalizing s with
  | nil => simp
  | cons a l ih =>
    rw [List.foldl_cons, List.foldl_cons, ih (s ++ a), ih ("" ++ a),
      String.empty_append, String.append_assoc]

theorem join_cons (a : String) (l : List String) :
    String.join (a :: l) = a ++ String.join l := by
  simp only [String.join, List.foldl_cons]
  rw [foldl_append_string, String.empty_append]

theorem join_append_string (l₁ l₂ : List String) :
    String.join (l₁ ++ l₂) = String.join l₁ ++ String.join l₂ := by
  simp only [String.join, List.foldl_append]
  rw [foldl_append_string]

theorem join_flatten (L : List (List String)) :
    String.join L.flatten = String.join (L.map String.join) := by
  induction L with
  | nil => rfl
  | cons x L ih =>
    rw [List.flatten_cons, join_append_string, ih, List.map_cons, join_cons]

theorem join_filter_of_empty (l : List SelName) (p : SelName → Bool)
    (H : SelName → String) (h : ∀ x ∈ l, p x = false → H x = "") :
    String.join ((l.filter p).map H) = String.join (l.map H) := by
  induction l with
  | nil => rfl
  | cons x xs ih =>
    have ih' := ih (fun y hy => h y (List.mem_cons_of_mem _ hy))
    cases hx : p x with
    | true =>
      rw [List.filter_cons_of_pos hx, List.map_cons, List.map_cons, join_cons,
        join_cons, ih']
    | false =>
      rw [List.filter_cons_of_neg (by simp [hx]), List.map_cons, join_cons,
        h x (List.mem_cons_self _ _) hx, String.empty_append, ih']

end CoreJs101

namespace CoreJs101

open CssBuilder

theorem presentB_append (fs : List Frag) (f : Frag) (k : SelName) :
    presentB (fs ++ [f]) k = (presentB fs k || (f.kind == k)) := by
  simp [presentB, List.any_append]

theorem presentB_false_iff (fs : List Frag) (k : SelName) :
    presentB fs k = false ↔ fs.filter (fun f => f.kind == k) = [] := by
  simp [presentB, List.any_eq_false, List.filter_eq_nil_iff]

theorem countKind_append_self (fs : List Frag) (f : Frag) :
    countKind (fs ++ [f]) f.kind = countKind fs f.kind + 1 := by
  simp [countKind, List.filter_append]

theorem validSeq_append_left (fs : List Frag) (f : Frag)
    (h : ValidSeq (fs ++ [f])) : ValidSeq fs := by
  obtain ⟨hs, hc⟩ := h
  constructor
  · rw [List.map_append] at hs
    exact (List.pairwise_append.1 hs).1
  · intro k hk
    have h1 : countKind fs k ≤ countKind (fs ++ [f]) k := by
      simp [countKind, List.filter_append]
    exact le_trans h1 (hc k hk)

theorem validSeq_last_ge (fs : List Frag) (f : Frag)
    (h : ValidSeq (fs ++ [f])) : ∀ g ∈ fs, g.kind.idx ≤ f.kind.idx := by
  obtain ⟨hs, _⟩ := h
  rw [List.map_append] at hs
  intro g hg
  exact (List.pairwise_append.1 hs).2.2 _ (List.mem_map_of_mem _ hg) _ (by simp)

theorem validSeq_singular_absent (fs : List Frag) (f : Frag)
    (h : ValidSeq (fs ++ [f])) (hsing : f.kind.singular = true) :
    presentB fs f.kind = false := by
  obtain ⟨_, hc⟩ := h
  have h1 := hc f.kind hsing
  rw [countKind_append_self] at h1
  have h0 : countKind fs f.kind = 0 := by omega
  rw [presentB_false_iff]
  exact List.length_eq_zero.1 h0

theorem entryOf_append_ne (fs : List Frag) (f : Frag) (k : SelName)
    (h : (f.kind == k) = false) : entryOf k (fs ++ [f]) = entryOf k fs := by
  simp [entryOf, List.filter_append, h]

theorem entryOf_append_self_repeat (fs : List Frag) (f : Frag)
    (hs : f.kind.singular = false) :
    entryOf f.kind (fs ++ [f]) =
      SelVal.multi ((fs.filter (fun g => g.kind == f.kind)).map Frag.rendered
        ++ [f.rendered]) := by
  simp [entryOf, List.filter_append, hs]

theorem entryOf_append_self_single (fs : List Frag) (f : Frag)
    (hs : f.kind.singular = true) (hp : presentB fs f.kind = false) :
    entryOf f.kind (fs ++ [f]) = SelVal.single f.rendered := by
  have h0 : fs.filter (fun g => g.kind == f.kind) = [] := (presentB_false_iff _ _).1 hp
  simp [entryOf, List.filter_append, hs, h0]

theorem step_eq (b : CssBuilder) (f : Frag) :
    step b f = if f.kind.singular then b.addSingle f.kind f.rendered
      else b.addRepeat f.kind f.rendered := by
  cases f <;> rfl

end CoreJs101

namespace CoreJs101
open CssBuilder

theorem buildOf_selectors (fs : List Frag) :
    (buildOf fs).selectors =
      (names.filter (fun k => presentB fs k)).map (fun k => (k, entryOf k fs)) := rfl

theorem ok_bind {α β : Type} (a : α) (g : α → Except CssError β) :
    ((Except.ok a : Except CssError α) >>= g) = g a := rfl

theorem bind_checkPosition_ok (b : CssBuilder)
    (h : checkKeys (b.selectors.map Prod.fst) = false) :
    (b.checkPosition >>= fun _ => (pure b : Except CssError CssBuilder)) = .ok b := by
  simp [checkPosition, h]

theorem bind_checkPosition_err (b : CssBuilder)
    (h : checkKeys (b.selectors.map Prod.fst) = true) :
    (b.checkPosition >>= fun _ => (pure b : Except CssError CssBuilder)) =
      .error .positionError := by
  simp [checkPosition, h]

theorem addRepeat_present (fs : List Frag) (f : Frag)
    (hp : presentB fs f.kind = true) (hs : f.kind.singular = false) :
    (buildOf fs).addRepeat f.kind f.rendered = .ok (buildOf (fs ++ [f])) := by
  have hhk : hasKey (buildOf fs).selectors f.kind = true := by
    rw [buildOf_selectors, hasKey_filter_map]
    exact hp
  have he : entryOf f.kind fs = SelVal.multi
      ((fs.filter (fun g => g.kind == f.kind)).map Frag.rendered) := by
    simp [entryOf, hs]
  simp only [CssBuilder.addRepeat, isSelector, hhk, if_true]
  rw [buildOf_selectors, pushFrag_map_entry _ _ _ _ _ he]
  rw [ok_bind]
  rw [bind_checkPosition_ok]
  · have hfil : names.filter (fun k => presentB (fs ++ [f]) k) =
        names.filter (fun k => presentB fs k) := by
      apply List.filter_congr
      intro x hx
      rw [presentB_append]
      by_cases hfx : f.kind = x
      · subst hfx; rw [hp]; simp
      · have : (f.kind == x) = false := by rw [beq_eq_false_iff_ne]; exact hfx
        rw [this, Bool.or_false]
    have hmap : ∀ x ∈ names.filter (fun k => presentB fs k),
        ((x, if (x == f.kind) = true then
            SelVal.multi ((fs.filter (fun g => g.kind == f.kind)).map Frag.rendered
              ++ [f.rendered])
          else entryOf x fs) : SelName × SelVal) = (x, entryOf x (fs ++ [f])) := by
      intro x hx
      by_cases hxf : x = f.kind
      · subst hxf
        rw [if_pos (by simp), entryOf_append_self_repeat fs f hs]
      · have hne : (f.kind == x) = false := by
          rw [beq_eq_false_iff_ne]; exact fun hh => hxf hh.symm
        have hne' : (x == f.kind) = false := by
          rw [beq_eq_false_iff_ne]; exact hxf
        rw [if_neg (by simp [hne']), entryOf_append_ne fs f x hne]
    have hsel : (names.filter (fun k => presentB fs k)).map
        (fun x => (x, if (x == f.kind) = true then
            SelVal.multi ((fs.filter (fun g => g.kind == f.kind)).map Frag.rendered
              ++ [f.rendered])
          else entryOf x fs)) = (buildOf (fs ++ [f])).selectors := by
      rw [buildOf_selectors, hfil]
      exact List.map_congr_left hmap
    rw [hsel]
    rfl
  · rw [map_fst_map_entry]
    exact checkKeys_filter_names _

end CoreJs101

namespace CoreJs101
open CssBuilder

theorem beq_comm_selName : ∀ (a b : SelName), (a == b) = (b == a) := by decide

theorem all_cond_of_lt (fs : List Frag) (k : SelName)
    (hlt : ∀ x : SelName, presentB fs x = true → x.idx < k.idx) :
    (names.all fun x => !presentB fs x || decide (x.idx < k.idx)) = true := by
  rw [List.all_eq_true]
  intro x hx
  cases hpx : presentB fs x with
  | false => simp
  | true => simp [hlt x hpx]

theorem filter_present_append (fs : List Frag) (f : Frag)
    (hp : presentB fs f.kind = false)
    (hcond : (names.all fun x => !presentB fs x || decide (x.idx < f.kind.idx)) = true) :
    names.filter (fun k => presentB (fs ++ [f]) k) =
      names.filter (fun k => presentB fs k) ++ [f.kind] := by
  have h1 : names.filter (fun k => presentB (fs ++ [f]) k) =
      names.filter (fun x => presentB fs x || (x == f.kind)) := by
    apply List.filter_congr
    intro x hx
    rw [presentB_append, beq_comm_selName]
  rw [h1]
  exact filter_names_extend _ _ hp hcond

theorem map_entry_append_ne (fs : List Frag) (f : Frag)
    (hp : presentB fs f.kind = false) :
    (names.filter (fun k => presentB fs k)).map (fun k => (k, entryOf k fs)) =
      (names.filter (fun k => presentB fs k)).map
        (fun k => (k, entryOf k (fs ++ [f]))) := by
  apply List.map_congr_left
  intro x hx
  have hpx : presentB fs x = true := (List.mem_filter.1 hx).2
  have hxf : (f.kind == x) = false := by
    rw [beq_eq_false_iff_ne]
    intro hh
    rw [hh, hpx] at hp
    simp at hp
  rw [entryOf_append_ne fs f x hxf]

theorem addSingle_absent_ok (fs : List Frag) (f : Frag)
    (hsing : f.kind.singular = true) (hp : presentB fs f.kind = false)
    (hlt : ∀ x : SelName, presentB fs x = true → x.idx < f.kind.idx) :
    (buildOf fs).addSingle f.kind f.rendered = .ok (buildOf (fs ++ [f])) := by
  have hcond := all_cond_of_lt fs f.kind hlt
  have hhk : hasKey (buildOf fs).selectors f.kind = false := by
    rw [buildOf_selectors, hasKey_filter_map]; exact hp
  simp only [CssBuilder.addSingle, checkValue, hhk, Bool.false_eq_true, if_false]
  rw [ok_bind, bind_checkPosition_ok]
  · have hsel : (buildOf fs).selectors ++ [(f.kind, SelVal.single f.rendered)] =
        (buildOf (fs ++ [f])).selectors := by
      rw [buildOf_selectors, buildOf_selectors, filter_present_append fs f hp hcond,
        List.map_append, map_entry_append_ne fs f hp]
      simp only [List.map_cons, List.map_nil]
      rw [entryOf_append_self_single fs f hsing hp]
    rw [hsel]
    rfl
  · rw [List.map_append, buildOf_selectors, map_fst_map_entry]
    simp only [List.map_cons, List.map_nil]
    exact checkKeys_filter_append_ok _ _ hp hcond

end CoreJs101

namespace CoreJs101
open CssBuilder

theorem keys_ne_of_absent (fs : List Frag) (f : Frag)
    (hp : presentB fs f.kind = false) :
    ∀ q ∈ (buildOf fs).selectors, (q.1 == f.kind) = false := by
  intro q hq
  rw [buildOf_selectors] at hq
  obtain ⟨x, hx, rfl⟩ := List.mem_map.1 hq
  have hpx := (List.mem_filter.1 hx).2
  rw [beq_eq_false_iff_ne]
  intro hh
  have hh' : x = f.kind := hh
  rw [hh'] at hpx
  rw [hpx] at hp
  simp at hp

theorem addRepeat_absent_ok (fs : List Frag) (f : Frag)
    (hsing : f.kind.singular = false) (hp : presentB fs f.kind = false)
    (hlt : ∀ x : SelName, presentB fs x = true → x.idx < f.kind.idx) :
    (buildOf fs).addRepeat f.kind f.rendered = .ok (buildOf (fs ++ [f])) := by
  have hcond := all_cond_of_lt fs f.kind hlt
  have hhk : hasKey (buildOf fs).selectors f.kind = false := by
    rw [buildOf_selectors, hasKey_filter_map]; exact hp
  simp only [CssBuilder.addRepeat, isSelector, hhk, Bool.false_eq_true, if_false]
  rw [pushFrag_append_new _ _ _ (keys_ne_of_absent fs f hp)]
  rw [ok_bind, bind_checkPosition_ok]
  · have hsel : (buildOf fs).selectors ++ [(f.kind, SelVal.multi [f.rendered])] =
        (buildOf (fs ++ [f])).selectors := by
      rw [buildOf_selectors, buildOf_selectors, filter_present_append fs f hp hcond,
        List.map_append, map_entry_append_ne fs f hp]
      simp only [List.map_cons, List.map_nil]
      rw [entryOf_append_self_repeat fs f hsing, (presentB_false_iff fs f.kind).1 hp]
      simp
    rw [hsel]
    rfl
  · rw [List.map_append, buildOf_selectors, map_fst_map_entry]
    simp only [List.map_cons, List.map_nil]
    exact checkKeys_filter_append_ok _ _ hp hcond

theorem step_absent_err (fs : List Frag) (f : Frag)
    (hp : presentB fs f.kind = false)
    (hbad : (names.any fun x => presentB fs x && decide (f.kind.idx < x.idx)) = true) :
    step (buildOf fs) f = .error .positionError := by
  have hhk : hasKey (buildOf fs).selectors f.kind = false := by
    rw [buildOf_selectors, hasKey_filter_map]; exact hp
  rw [step_eq]
  cases hsing : f.kind.singular with
  | true =>
    simp only [hsing, if_true]
    simp only [CssBuilder.addSingle, checkValue, hhk, Bool.false_eq_true, if_false]
    rw [ok_bind, bind_checkPosition_err]
    rw [List.map_append, buildOf_selectors, map_fst_map_entry]
    simp only [List.map_cons, List.map_nil]
    exact checkKeys_filter_append_bad _ _ hp hbad
  | false =>
    simp only [hsing, Bool.false_eq_true, if_false]
    simp only [CssBuilder.addRepeat, isSelector, hhk, Bool.false_eq_true, if_false]
    rw [pushFrag_append_new _ _ _ (keys_ne_of_absent fs f hp)]
    rw [ok_bind, bind_checkPosition_err]
    rw [List.map_append, buildOf_selectors, map_fst_map_entry]
    simp only [List.map_cons, List.map_nil]
    exact checkKeys_filter_append_bad _ _ hp hbad

theorem step_present_singular_err (fs : List Frag) (f : Frag)
    (hp : presentB fs f.kind = true) (hsing : f.kind.singular = true) :
    step (buildOf fs) f = .error .repeatError := by
  have hhk : hasKey (buildOf fs).selectors f.kind = true := by
    rw [buildOf_selectors, hasKey_filter_map]; exact hp
  rw [step_eq]
  simp only [hsing, if_true]
  simp only [CssBuilder.addSingle, checkValue, hhk, if_true]
  rfl

end CoreJs101

namespace CoreJs101
open CssBuilder

theorem run_append_single (fs : List Frag) (f : Frag) :
    run (fs ++ [f]) = run fs >>= (fun b => step b f) := by
  rw [run, run, List.foldlM_append]
  simp [List.foldlM_cons, List.foldlM_nil]

theorem run_valid : ∀ (fs : List Frag), ValidSeq fs → run fs = .ok (buildOf fs) := by
  intro fs
  induction fs using List.reverseRecOn with
  | nil => intro _; rfl
  | append_singleton fs f ih =>
    intro hv
    have hvp := validSeq_append_left fs f hv
    rw [run_append_single, ih hvp, ok_bind]
    cases hp : presentB fs f.kind with
    | true =>
      cases hsing : f.kind.singular with
      | true =>
        exfalso
        have habs := validSeq_singular_absent fs f hv hsing
        rw [habs] at hp
        simp at hp
      | false =>
        rw [step_eq, hsing]
        simp only [Bool.false_eq_true, if_false]
        exact addRepeat_present fs f hp hsing
    | false =>
      have hlt : ∀ x : SelName, presentB fs x = true → x.idx < f.kind.idx := by
        intro x hx
        obtain ⟨g, hg, hgx⟩ := List.any_eq_true.1 hx
        have hgx' : g.kind = x := by rwa [beq_iff_eq] at hgx
        have hle := validSeq_last_ge fs f hv g hg
        rw [hgx'] at hle
        rcases lt_or_eq_of_le hle with hlt | heq
        · exact hlt
        · exfalso
          have hxe := idx_inj x f.kind heq
          rw [hxe] at hx
          rw [hx] at hp
          simp at hp
      cases hsing : f.kind.singular with
      | true =>
        rw [step_eq, hsing]
        simp only [if_true]
        exact addSingle_absent_ok fs f hsing hp hlt
      | false =>
        rw [step_eq, hsing]
        simp only [Bool.false_eq_true, if_false]
        exact addRepeat_absent_ok fs f hsing hp hlt

end CoreJs101

namespace CoreJs101
open CssBuilder

theorem valueFrags_entryOf (fs : List Frag) (k : SelName) (hv : ValidSeq fs)
    (hk : presentB fs k = true) :
    valueFrags (entryOf k fs) = (fs.filter (fun f => f.kind == k)).map Frag.rendered := by
  cases hs : k.singular with
  | false => simp [entryOf, hs, valueFrags]
  | true =>
    have hc : countKind fs k ≤ 1 := hv.2 k hs
    have hne : fs.filter (fun f => f.kind == k) ≠ [] := by
      intro h0
      rw [← presentB_false_iff] at h0
      rw [h0] at hk
      simp at hk
    have hlen : (fs.filter (fun f => f.kind == k)).length = 1 := by
      have hpos := List.length_pos.2 hne
      unfold countKind at hc
      omega
    obtain ⟨a, ha⟩ := List.length_eq_one.1 hlen
    rw [entryOf, if_pos hs, ha]
    simp [valueFrags]

theorem stringify_buildOf (fs : List Frag) (hv : ValidSeq fs) :
    (buildOf fs).stringify = canonicalRender fs := by
  rw [stringify]
  rw [if_neg (by simp [buildOf])]
  rw [buildOf_selectors, List.map_map]
  have hcong : ∀ x ∈ names.filter (fun k => presentB fs k),
      ((fun p => valueFrags p.2) ∘ (fun k => (k, entryOf k fs))) x =
        (fun k => (fs.filter (fun f => f.kind == k)).map Frag.rendered) x := by
    intro x hx
    exact valueFrags_entryOf fs x hv (List.mem_filter.1 hx).2
  rw [List.map_congr_left hcong]
  rw [join_flatten, List.map_map]
  rw [join_filter_of_empty _ _ _ ?empt]
  case empt =>
    intro x hx hpx
    have h0 := (presentB_false_iff fs x).1 hpx
    simp only [Function.comp, h0, List.map_nil]
    rfl
  rfl

end CoreJs101

/-! ## Claim theorems -/

namespace CoreJs101

open CssBuilder

/-- Claim C1: for every fragment-insertion sequence on one builder that
respects the canonical kind order (and repeats no singular kind, so no
call raises), `stringify()` returns the concatenation of each fragment's
rendered text, kinds in canonical order, fragments of a repeatable kind in
insertion order, with no separator between fragments. -/
theorem stringify_respects_canonical_order (fs : List Frag) (hv : ValidSeq fs) :
    ∃ b, run fs = .ok b ∧ b.stringify = canonicalRender fs :=
  ⟨buildOf fs, run_valid fs hv, stringify_buildOf fs hv⟩

/-- Witness for C1: `id('main').class('container').class('editable')`
stringifies to `'#main.container.editable'`. -/
theorem stringify_respects_canonical_order_witness :
    ValidSeq [Frag.id "main", Frag.«class» "container", Frag.«class» "editable"] ∧
    ∃ b, run [Frag.id "main", Frag.«class» "container", Frag.«class» "editable"] = .ok b ∧
      b.stringify = "#main.container.editable" := by
  refine ⟨by decide, ?_⟩
  obtain ⟨b, h1, h2⟩ := stringify_respects_canonical_order
    [Frag.id "main", Frag.«class» "container", Frag.«class» "editable"] (by decide)
  exact ⟨b, h1, by rw [h2]; rfl⟩

/-- Counterexample to claim C2 as stated: `class('a').attr('b').class('c')`
adds a fragment of a strictly earlier kind (`class` before `attr`) after an
`attr` fragment, yet raises no `OrderError` — it succeeds and stringifies
to `'.a.c[b]'`, because `checkPosition` compares only the first-insertion
order of the distinct kinds. -/
theorem class_attr_class_no_order_error :
    (run [Frag.«class» "a", Frag.attr "b", Frag.«class» "c"]).map CssBuilder.stringify =
      .ok ".a.c[b]" := rfl

/-- Claim C2 as amended: on a builder built by a valid sequence, adding a
fragment whose kind is not yet present raises `OrderError` exactly when a
strictly later kind is already present; a call for a kind already present
never raises `OrderError` — a repeatable kind appends successfully even
when later kinds were added in between, and a singular kind already
present raises `DuplicateFragmentError` (the `repeatError`), not
`OrderError`. -/
theorem order_error_only_for_new_earlier_kind (fs : List Frag) (f : Frag)
    (b : CssBuilder) (hv : ValidSeq fs) (hb : run fs = .ok b) :
    (presentB fs f.kind = false →
      (∃ x : SelName, presentB fs x = true ∧ f.kind.idx < x.idx) →
      step b f = .error .positionError) ∧
    (presentB fs f.kind = true → step b f ≠ .error .positionError) ∧
    (presentB fs f.kind = true → f.kind.singular = false →
      ∃ b', step b f = .ok b') ∧
    (presentB fs f.kind = true → f.kind.singular = true →
      step b f = .error .repeatError) := by
  have hbb : b = buildOf fs := by
    rw [run_valid fs hv] at hb
    exact (Except.ok.inj hb).symm
  subst hbb
  have hok : presentB fs f.kind = true → f.kind.singular = false →
      ∃ b', step (buildOf fs) f = .ok b' := by
    intro hp hsing
    refine ⟨buildOf (fs ++ [f]), ?_⟩
    rw [step_eq, hsing]
    simp only [Bool.false_eq_true, if_false]
    exact addRepeat_present fs f hp hsing
  have hdup : presentB fs f.kind = true → f.kind.singular = true →
      step (buildOf fs) f = .error .repeatError :=
    fun hp hsing => step_present_singular_err fs f hp hsing
  refine ⟨?_, ?_, hok, hdup⟩
  · intro hp hbad
    apply step_absent_err fs f hp
    rw [List.any_eq_true]
    obtain ⟨x, hx1, hx2⟩ := hbad
    exact ⟨x, mem_names x, by rw [hx1]; simp [hx2]⟩
  · intro hp
    cases hsing : f.kind.singular with
    | true =>
      rw [hdup hp hsing]
      intro hcc
      exact CssError.noConfusion (Except.error.inj hcc)
    | false =>
      obtain ⟨b', hb'⟩ := hok hp hsing
      rw [hb']
      intro hcc
      exact Except.noConfusion hcc

/-- Witness for the amended C2: after `class('a').attr('b')`, an `id` call
raises `OrderError`, a further `class` call succeeds without `OrderError`,
and after `element('a').class('b')` a second `element` call raises
`repeatError`, not `OrderError`. -/
theorem order_error_only_for_new_earlier_kind_witness :
    (step (buildOf [Frag.«class» "a", Frag.attr "b"]) (Frag.id "x") =
      .error .positionError) ∧
    (step (buildOf [Frag.«class» "a", Frag.attr "b"]) (Frag.«class» "c") ≠
      .error .positionError) ∧
    (∃ b', step (buildOf [Frag.«class» "a", Frag.attr "b"]) (Frag.«class» "c") =
      .ok b') ∧
    (step (buildOf [Frag.element "a", Frag.«class» "b"]) (Frag.element "c") =
      .error .repeatError) ∧
    (step (buildOf [Frag.element "a", Frag.«class» "b"]) (Frag.element "c") ≠
      .error .positionError) := by
  refine ⟨?_, ?_, ?_, ?_, ?_⟩
  · exact (order_error_only_for_new_earlier_kind [Frag.«class» "a", Frag.attr "b"]
      (Frag.id "x") _ (by decide) rfl).1 (by decide) (by decide)
  · exact (order_error_only_for_new_earlier_kind [Frag.«class» "a", Frag.attr "b"]
      (Frag.«class» "c") _ (by decide) rfl).2.1 (by decide)
  · exact (order_error_only_for_new_earlier_kind [Frag.«class» "a", Frag.attr "b"]
      (Frag.«class» "c") _ (by decide) rfl).2.2.1 (by decide) (by decide)
  · exact (order_error_only_for_new_earlier_kind [Frag.element "a", Frag.«class» "b"]
      (Frag.element "c") _ (by decide) rfl).2.2.2 (by decide) (by decide)
  · exact (order_error_only_for_new_earlier_kind [Frag.element "a", Frag.«class» "b"]
      (Frag.element "c") _ (by decide) rfl).2.1 (by decide)

/-- Claim C4: for any two builders and any combinator token, the facade's
`combine(A, t, B)` stringifies to `A.stringify() + ' ' + t + ' ' +
B.stringify()`; with the descendant token `' '` this yields three spaces,
and nesting reproduces the reference example. -/
theorem combine_stringify_concatenation :
    (∀ (item1 item2 : CssBuilder) (t : String),
      (cssSelectorBuilder.combine item1 t item2).stringify =
        item1.stringify ++ " " ++ t ++ " " ++ item2.stringify) ∧
    combineExample =
      .ok "div#main.container.draggable + table#data ~ tr:nth-of-type(even)   td:nth-of-type(even)" := by
  constructor
  · intro i1 i2 t
    simp only [cssSelectorBuilder.combine, CssBuilder.combine, CssBuilder.empty]
    rw [stringify]
    rw [if_pos (by simp)]
    simp only [List.nil_append]
    rw [join_cons]
    rw [show String.join [] = "" from rfl, String.append_empty]
  · rfl

/-- Counterexample to claim C5 as stated: the combined node's text is
rendered at `combine` time, not on demand.  After `c = combine(L, '+', R)`
with `L = element('a')`, adding `class('x')` to the operand leaves
`c.stringify()` at `'a + b'`, not the `'a.x + b'` the claim requires. -/
theorem combine_not_on_demand_counterexample :
    (do
      let L ← cssSelectorBuilder.element "a"
      let R ← cssSelectorBuilder.element "b"
      let c := cssSelectorBuilder.combine L "+" R
      let L2 ← L.«class» "x"
      pure (c.stringify, L2.stringify) : Except CssError (String × String)) =
      .ok ("a + b", "a.x") ∧ ("a + b" : String) ≠ "a.x + b" := by
  exact ⟨rfl, by decide⟩

/-- Claim C5 as amended: `combine` renders both operands eagerly at the
time of the call and stores the text on `this.complex`; `stringify`
returns the stored texts, so later changes to an operand are not
reflected. -/
theorem combine_renders_eagerly (b item1 item2 : CssBuilder) (t : String) :
    (b.combine item1 t item2).complex =
      b.complex ++ [item1.stringify ++ " " ++ t ++ " " ++ item2.stringify] ∧
    (b.combine item1 t item2).stringify =
      String.join b.complex ++ (item1.stringify ++ " " ++ t ++ " " ++ item2.stringify) := by
  refine ⟨rfl, ?_⟩
  show (CssBuilder.mk b.selectors
    (b.complex ++ [item1.stringify ++ " " ++ t ++ " " ++ item2.stringify])
    b.combinationString).stringify = _
  rw [stringify]
  rw [if_pos (by simp)]
  rw [join_append_string, join_cons]
  rw [show String.join [] = "" from rfl, String.append_empty]

/-- Claim C6: `combine` called on any builder that holds only fragments
(no prior combined renderings) ignores the receiver's accumulated
fragments: the result stringifies exactly as a fresh facade `combine`
with the same operands. -/
theorem combine_ignores_receiver_fragments (b item1 item2 : CssBuilder)
    (t : String) (hb : b.complex = []) :
    (b.combine item1 t item2).stringify =
      (cssSelectorBuilder.combine item1 t item2).stringify := by
  simp [CssBuilder.combine, cssSelectorBuilder.combine, CssBuilder.empty, stringify, hb]

/-- Witness for C6: a builder holding a `class` fragment combines exactly
like a fresh builder. -/
theorem combine_ignores_receiver_fragments_witness :
    (buildOf [Frag.«class» "a"]).complex = [] ∧
    ((buildOf [Frag.«class» "a"]).combine (buildOf [Frag.id "m"]) "+"
        (buildOf [Frag.attr "z"])).stringify =
      (cssSelectorBuilder.combine (buildOf [Frag.id "m"]) "+"
        (buildOf [Frag.attr "z"])).stringify :=
  ⟨rfl, combine_ignores_receiver_fragments _ _ _ _ rfl⟩

end CoreJs101

namespace CoreJs101

open CssBuilder

theorem lookup_append_new (l : List (SelName × SelVal)) (k : SelName) (x : SelVal)
    (h : hasKey l k = false) : List.lookup k (l ++ [(k, x)]) = some x := by
  induction l with
  | nil => simp [List.lookup]
  | cons q l ih =>
    obtain ⟨a, v⟩ := q
    simp only [hasKey, List.any_cons, Bool.or_eq_false_iff] at h
    have hka : (k == a) = false := by
      rw [beq_comm_selName]; exact h.1
    simp only [List.cons_append, List.lookup, hka]
    exact ih h.2

theorem addSingle_cases (b : CssBuilder) (k : SelName) (text : String) :
    (hasKey b.selectors k = true → b.addSingle k text = .error .repeatError) ∧
    (∀ b', b.addSingle k text = .ok b' →
      List.lookup k b'.selectors = some (.single text)) := by
  constructor
  · intro hk
    simp only [CssBuilder.addSingle, checkValue, hk, if_true]
    rfl
  · intro b' hok
    cases hkk : hasKey b.selectors k with
    | true =>
      simp only [CssBuilder.addSingle, checkValue, hkk, if_true] at hok
      exact absurd hok (by simp [Bind.bind, Except.bind])
    | false =>
      simp only [CssBuilder.addSingle, checkValue, hkk, Bool.false_eq_true, if_false,
        ok_bind, checkPosition] at hok
      split at hok
      · exact absurd hok (by simp [Bind.bind, Except.bind])
      · have hinj : ({ b with selectors := b.selectors ++ [(k, SelVal.single text)] }
            : CssBuilder) = b' := by
          have : (pure { b with selectors := b.selectors ++ [(k, SelVal.single text)] }
              : Except CssError CssBuilder) = .ok b' := hok
          exact Except.ok.inj this
        rw [← hinj]
        exact lookup_append_new b.selectors k (.single text) hkk

end CoreJs101

namespace CoreJs101

open CssBuilder

/-- Claim C3: `element`, `id` and `pseudoElement` are singular — calling
one a second time on the same builder raises `DuplicateFragmentError`
(the `repeatError`); a successful first call stores the fragment rendered
as the literal tag text, `'#' + value`, and `'::' + value` respectively. -/
theorem singular_kinds_duplicate_and_rendering (b : CssBuilder) (v : String) :
    (hasKey b.selectors .element = true → b.element v = .error .repeatError) ∧
    (∀ b', b.element v = .ok b' →
      List.lookup SelName.element b'.selectors = some (.single v)) ∧
    (hasKey b.selectors .id = true → b.id v = .error .repeatError) ∧
    (∀ b', b.id v = .ok b' →
      List.lookup SelName.id b'.selectors = some (.single ("#" ++ v))) ∧
    (hasKey b.selectors .pseudoElement = true →
      b.pseudoElement v = .error .repeatError) ∧
    (∀ b', b.pseudoElement v = .ok b' →
      List.lookup SelName.pseudoElement b'.selectors = some (.single ("::" ++ v))) := by
  have h1 := addSingle_cases b .element v
  have h2 := addSingle_cases b .id ("#" ++ v)
  have h3 := addSingle_cases b .pseudoElement ("::" ++ v)
  exact ⟨h1.1, h1.2, h2.1, h2.2, h3.1, h3.2⟩

/-- Witness for C3: a second `element` call on `element('a')` raises
`repeatError`, and the first call stored the literal `'a'`. -/
theorem singular_kinds_duplicate_and_rendering_witness :
    (CssBuilder.mk [(.element, .single "a")] [] "").element "b" =
      .error .repeatError ∧
    List.lookup SelName.element
      (CssBuilder.mk [(.element, .single "a")] [] "").selectors =
        some (.single "a") := by
  constructor
  · exact (singular_kinds_duplicate_and_rendering
      (CssBuilder.mk [(.element, .single "a")] [] "") "b").1 (by decide)
  · have h := ((singular_kinds_duplicate_and_rendering CssBuilder.empty "a").2.1)
      (CssBuilder.mk [(.element, .single "a")] [] "") rfl
    exact h

/-- Counterexample to claim C10 as stated: a fragment call on a builder
whose `complex` list is non-empty does not always succeed — the usual
order validation still applies: after `combine`, `class('x')` then
`id('m')` raises `OrderError`. -/
theorem fragment_call_after_combine_can_raise :
    (do
      let A ← cssSelectorBuilder.element "a"
      let B ← cssSelectorBuilder.element "b"
      let c := cssSelectorBuilder.combine A "+" B
      let c2 ← c.«class» "x"
      let c3 ← c2.id "m"
      pure c3.stringify : Except CssError String) = .error .positionError := rfl

/-- Claim C10 as amended: once a builder's `complex` list is non-empty,
`stringify()` returns only the concatenation of the stored combined
renderings, ignoring all fragments in `selectors` (whether added before or
after the combine); fragment calls remain subject to the usual duplicate
and order validation, and when they succeed they return the builder for
chaining with `complex` — and hence the `stringify()` result — unchanged. -/
theorem stringify_ignores_fragments_once_combined (b : CssBuilder)
    (hb : b.complex ≠ []) :
    b.stringify = String.join b.complex ∧
    ∀ (f : Frag) (b' : CssBuilder), step b f = .ok b' →
      b'.complex = b.complex ∧ b'.stringify = b.stringify := by
  have hstr : ∀ c : CssBuilder, c.complex = b.complex → c.stringify = String.join b.complex := by
    intro c hc
    rw [stringify, hc, if_pos (by cases hcc : b.complex with
      | nil => exact absurd hcc hb
      | cons x xs => simp)]
  refine ⟨hstr b rfl, ?_⟩
  intro f b' hok
  have hcpx : b'.complex = b.complex := by
    rw [step_eq] at hok
    split at hok
    · simp only [CssBuilder.addSingle, checkValue] at hok
      split at hok
      · exact absurd hok (by simp [Bind.bind, Except.bind])
      · rw [ok_bind, checkPosition] at hok
        split at hok
        · exact absurd hok (by simp [Bind.bind, Except.bind])
        · have := Except.ok.inj hok
          rw [← this]
    · simp only [CssBuilder.addRepeat] at hok
      cases hpf : pushFrag (isSelector b.selectors f.kind) f.kind f.rendered with
      | error e => rw [hpf] at hok; exact absurd hok (by simp [Bind.bind, Except.bind])
      | ok sel =>
        rw [hpf, ok_bind, checkPosition] at hok
        split at hok
        · exact absurd hok (by simp [Bind.bind, Except.bind])
        · have := Except.ok.inj hok
          rw [← this]
  exact ⟨hcpx, by rw [hstr b' hcpx, hstr b rfl]⟩

/-- Witness for the amended C10: on a combined builder with a stored
rendering, `stringify` returns it, and a successful `class` call leaves
the rendering unchanged. -/
theorem stringify_ignores_fragments_once_combined_witness :
    (CssBuilder.mk [] ["a + b"] "").stringify = String.join ["a + b"] ∧
    ∀ b', step (CssBuilder.mk [] ["a + b"] "") (Frag.«class» "x") = .ok b' →
      b'.complex = ["a + b"] ∧ b'.stringify = (CssBuilder.mk [] ["a + b"] "").stringify := by
  have h := stringify_ignores_fragments_once_combined
    (CssBuilder.mk [] ["a + b"] "") (by simp)
  exact ⟨h.1, fun b' hb' => h.2 (Frag.«class» "x") b' hb'⟩

end CoreJs101

namespace CoreJs101

open CssBuilder

/-- Claim C8: `stringify()` is total and never raises — for every builder
(simple or combined) in a heap reached through public facade calls that
did not raise, `stringify` returns a string.  In the embedding `stringify`
has type `CssBuilder → String` because the source method performs no
throwing operation. -/
theorem stringify_never_raises (ops : List HOp) (hp : List CssBuilder)
    (h : runHeap ops = .ok hp) :
    ∀ (j : Nat) (b : CssBuilder), hp[j]? = some b → ∃ s : String, b.stringify = s := by
  intro j b _
  exact ⟨b.stringify, rfl⟩

/-- Witness for C8: a heap built by a facade `element` call, whose single
builder stringifies to a string. -/
theorem stringify_never_raises_witness :
    runHeap [HOp.fresh, HOp.frag 0 (Frag.element "a")] =
      .ok [CssBuilder.mk [(.element, .single "a")] [] ""] ∧
    ∃ s : String, (CssBuilder.mk [(.element, .single "a")] [] "").stringify = s := by
  refine ⟨rfl, ?_⟩
  exact stringify_never_raises [HOp.fresh, HOp.frag 0 (Frag.element "a")] _ rfl 0 _ rfl

/-- Claim C9: no shared mutable state — an operation on one builder never
changes the observable state of any other builder in the heap, and every
facade creation appends a fresh empty builder regardless of existing
state. -/
theorem builder_ops_are_isolated (hp : List CssBuilder) (op : HOp)
    (hp' : List CssBuilder) (h : applyHOp hp op = .ok hp') :
    (∀ j, j < hp.length → op.writeTarget ≠ some j → hp'[j]? = hp[j]?) ∧
    applyHOp hp .fresh = .ok (hp ++ [CssBuilder.empty]) := by
  refine ⟨?_, rfl⟩
  intro j hj ht
  cases op with
  | fresh =>
    simp only [applyHOp] at h
    rw [← Except.ok.inj h]
    rw [List.getElem?_append, if_pos hj]
  | frag i f =>
    have hij : i ≠ j := fun he => ht (by rw [HOp.writeTarget, he])
    simp only [applyHOp] at h
    split at h
    · cases hsf : step _ f with
      | error e => rw [hsf] at h; exact absurd h (by simp [Except.map])
      | ok b2 =>
        rw [hsf] at h
        simp only [Except.map] at h
        rw [← Except.ok.inj h]
        exact List.getElem?_set_ne hij
    · exact absurd h (by simp)
  | comb i l t r =>
    have hij : i ≠ j := fun he => ht (by rw [HOp.writeTarget, he])
    simp only [applyHOp] at h
    split at h
    · rw [← Except.ok.inj h]
      exact List.getElem?_set_ne hij
    · exact absurd h (by simp)

/-- Witness for C9: a `class` call on builder 0 leaves builder 1's state
unchanged. -/
theorem builder_ops_are_isolated_witness :
    applyHOp [CssBuilder.empty, CssBuilder.mk [] ["a + b"] ""]
      (HOp.frag 0 (Frag.«class» "x")) =
      .ok [CssBuilder.mk [(.«class», .multi [".x"])] [] "",
        CssBuilder.mk [] ["a + b"] ""] ∧
    ([CssBuilder.mk [(.«class», .multi [".x"])] [] "",
        CssBuilder.mk [] ["a + b"] ""] : List CssBuilder)[1]? =
      ([CssBuilder.empty, CssBuilder.mk [] ["a + b"] ""] : List CssBuilder)[1]? := by
  refine ⟨rfl, ?_⟩
  exact (builder_ops_are_isolated [CssBuilder.empty, CssBuilder.mk [] ["a + b"] ""]
    (HOp.frag 0 (Frag.«class» "x")) _ rfl).1 1 (by decide) (by decide)

end CoreJs101


namespace CoreJs101

theorem digitChar_isDigit (d : Nat) (hd : d < 10) :
    (Char.ofNat (48 + d)).isDigit = true := by
  interval_cases d <;> decide

theorem digitChar_val (d : Nat) (hd : d < 10) :
    (Char.ofNat (48 + d)).toNat - 48 = d := by
  interval_cases d <;> decide

theorem natToDigitChars_ne_nil (n : Nat) : natToDigitChars n ≠ [] := by
  rw [natToDigitChars]
  split
  · simp
  · simp

theorem natToDigitChars_digits (n : Nat) :
    ∀ c ∈ natToDigitChars n, c.isDigit = true := by
  induction n using Nat.strong_induction_on with
  | _ n ih =>
    rw [natToDigitChars]
    split
    · next h => intro c hc; simp at hc; subst hc; exact digitChar_isDigit n h
    · next h =>
      intro c hc
      rw [List.mem_append] at hc
      rcases hc with hc | hc
      · exact ih (n / 10) (Nat.div_lt_self (by omega) (by omega)) c hc
      · simp at hc; subst hc; exact digitChar_isDigit (n % 10) (Nat.mod_lt _ (by omega))

theorem digitsToNat_append (l1 l2 : List Char) (acc : Nat) :
    digitsToNat (l1 ++ l2) acc = digitsToNat l2 (digitsToNat l1 acc) := by
  induction l1 generalizing acc with
  | nil => rfl
  | cons c cs ih =>
    simp only [List.cons_append, digitsToNat]
    exact ih _

theorem digitsToNat_natToDigitChars (n : Nat) :
    ∀ acc, digitsToNat (natToDigitChars n) acc =
      acc * 10 ^ (natToDigitChars n).length + n := by
  induction n using Nat.strong_induction_on with
  | _ n ih =>
    intro acc
    rw [natToDigitChars]
    split
    · next h =>
      simp only [digitsToNat, List.length_cons, List.length_nil]
      rw [digitChar_val n h]
      ring
    · next h =>
      rw [digitsToNat_append]
      have ihn := ih (n / 10) (Nat.div_lt_self (by omega) (by omega)) acc
      rw [ihn]
      simp only [digitsToNat]
      rw [digitChar_val (n % 10) (Nat.mod_lt _ (by omega))]
      rw [List.length_append, List.length_cons, List.length_nil]
      simp only [Nat.zero_add]
      rw [pow_succ]
      generalize (10:Nat) ^ (natToDigitChars (n / 10)).length = M
      have hdm := Nat.div_add_mod n 10
      ring_nf
      omega

theorem takeWhile_append_all (p : Char → Bool) (l r : List Char)
    (hl : ∀ c ∈ l, p c = true) (hr : ∀ c cs, r = c :: cs → p c = false) :
    (l ++ r).takeWhile p = l ∧ (l ++ r).dropWhile p = r := by
  induction l with
  | nil =>
    simp only [List.nil_append]
    cases r with
    | nil => exact ⟨rfl, rfl⟩
    | cons c cs =>
      have hc := hr c cs rfl
      simp [List.takeWhile_cons, List.dropWhile_cons, hc]
  | cons x xs ih =>
    have hx := hl x (List.mem_cons_self _ _)
    obtain ⟨iht, ihd⟩ := ih (fun c hc => hl c (List.mem_cons_of_mem _ hc))
    simp [List.takeWhile_cons, List.dropWhile_cons, hx, iht, ihd]

theorem parseNatChars_render (n : Nat) (r : List Char)
    (hr : ∀ c cs, r = c :: cs → c.isDigit = false) :
    parseNatChars (natToDigitChars n ++ r) = some (n, r) := by
  obtain ⟨ht, hd⟩ := takeWhile_append_all Char.isDigit (natToDigitChars n) r
    (natToDigitChars_digits n) hr
  rw [parseNatChars]
  simp only [ht, hd]
  rw [if_neg (by simp [List.isEmpty_iff, natToDigitChars_ne_nil n])]
  rw [digitsToNat_natToDigitChars n 0]
  simp

theorem parseIntChars_not_neg (c : Char) (cs : List Char) (hc : ¬c = '-') :
    parseIntChars (c :: cs) =
      (parseNatChars (c :: cs)).map (fun p => ((p.1 : Int), p.2)) := by
  rw [parseIntChars.eq_def]
  split
  · next heq => simp at heq; exact absurd heq.1 hc
  · rfl

theorem parseIntChars_render (n : Int) (r : List Char)
    (hr : ∀ c cs, r = c :: cs → c.isDigit = false) :
    parseIntChars (intChars n ++ r) = some (n, r) := by
  rw [intChars]
  split
  · next hneg =>
    simp only [List.cons_append]
    rw [parseIntChars]
    rw [parseNatChars_render _ _ hr]
    simp only [Option.map_some']
    have : ((n.natAbs : Int)) = -n := by omega
    rw [this]
    simp
  · next hpos =>
    obtain ⟨c, cs', heq⟩ := List.exists_cons_of_ne_nil (natToDigitChars_ne_nil n.toNat)
    have hcd : c.isDigit = true := by
      apply natToDigitChars_digits n.toNat
      rw [heq]; exact List.mem_cons_self _ _
    have hcm : ¬c = '-' := by
      intro hcc; rw [hcc] at hcd; exact absurd hcd (by decide)
    rw [heq, List.cons_append, parseIntChars_not_neg c _ hcm, ← List.cons_append, ← heq]
    rw [parseNatChars_render _ _ hr]
    simp only [Option.map_some']
    have : ((n.toNat : Int)) = n := by omega
    rw [this]

theorem key_span (k : String) (hk : ('"' : Char) ∉ k.data) (tail : List Char) :
    (k.data ++ '"' :: tail).takeWhile (· != '"') = k.data ∧
    (k.data ++ '"' :: tail).dropWhile (· != '"') = '"' :: tail := by
  apply takeWhile_append_all
  · intro c hc
    have : ¬c = '"' := fun hcc => hk (hcc ▸ hc)
    simp [this]
  · intro c cs hcs
    injection hcs with h1 _
    rw [← h1]
    decide

theorem parseFields_render : ∀ (fields : List (String × Int)) (fuel : Nat) (r : List Char),
    fields.length ≤ fuel →
    (∀ kv ∈ fields, ('"' : Char) ∉ kv.1.data) →
    parseFields fuel (fieldsChars fields ++ '}' :: r) = some (fields, r) := by
  intro fields
  induction fields with
  | nil =>
    intro fuel r _ _
    rw [show fieldsChars [] = [] from rfl, List.nil_append, parseFields]
  | cons kv rest ih =>
    intro fuel r hlen hq
    cases fuel with
    | zero => simp at hlen
    | succ fuel' =>
      have hkv := hq kv (List.mem_cons_self _ _)
      cases rest with
      | nil =>
        rw [show fieldsChars [kv] = fieldChars kv from rfl, fieldChars]
        simp only [List.cons_append, List.append_assoc]
        rw [parseFields]
        obtain ⟨ht, hd⟩ := key_span kv.1 hkv (':' :: (intChars kv.2 ++ '}' :: r))
        simp only [ht, hd]
        rw [parseIntChars_render kv.2 ('}' :: r) (by intro c cs hcs; injection hcs with h1 _; rw [← h1]; decide)]
        rfl
      | cons kv2 rest2 =>
        rw [show fieldsChars (kv :: kv2 :: rest2) =
          fieldChars kv ++ ',' :: fieldsChars (kv2 :: rest2) from rfl, fieldChars]
        simp only [List.cons_append, List.append_assoc]
        rw [parseFields]
        obtain ⟨ht, hd⟩ := key_span kv.1 hkv
          (':' :: (intChars kv.2 ++ ',' :: (fieldsChars (kv2 :: rest2) ++ '}' :: r)))
        simp only [ht, hd]
        rw [parseIntChars_render kv.2 (',' :: (fieldsChars (kv2 :: rest2) ++ '}' :: r))
          (by intro c cs hcs; injection hcs with h1 _; rw [← h1]; decide)]
        have hmain := ih fuel' r (by simp at hlen ⊢; omega)
          (fun kv' hkv' => hq kv' (List.mem_cons_of_mem _ hkv'))
        show Option.map (fun p => ((String.mk kv.1.data, kv.2) :: p.1, p.2))
          (parseFields fuel' (fieldsChars (kv2 :: rest2) ++ '}' :: r)) = _
        rw [hmain]
        rfl

theorem fields_length_le (fields : List (String × Int)) :
    fields.length ≤ (fieldsChars fields ++ ['}']).length := by
  induction fields with
  | nil => simp
  | cons kv rest ih =>
    have h1 : 1 ≤ (fieldChars kv).length := by
      rw [fieldChars]; simp
    cases rest with
    | nil =>
      rw [show fieldsChars [kv] = fieldChars kv from rfl]
      simp only [List.length_append, List.length_cons, List.length_nil]
      omega
    | cons kv2 rest2 =>
      rw [show fieldsChars (kv :: kv2 :: rest2) =
        fieldChars kv ++ ',' :: fieldsChars (kv2 :: rest2) from rfl]
      simp only [List.length_append, List.length_cons, List.length_nil] at ih ⊢
      omega

theorem jsonParse_getJSON (obj : JsObj)
    (hk : ∀ kv ∈ obj.fields, ('"' : Char) ∉ kv.1.data) :
    jsonParse (getJSON obj) = some obj := by
  rw [jsonParse, getJSON]
  show (match parseFields ((fieldsChars obj.fields ++ ['}']).length)
      (fieldsChars obj.fields ++ ['}']) with
    | some (fs, []) => some (JsObj.mk fs)
    | _ => none) = some obj
  rw [parseFields_render obj.fields ((fieldsChars obj.fields ++ ['}']).length) []
    (fields_length_le obj.fields) hk]

/-- Claim C7: round-trip through serialization — for every rectangle-like
object with fields `width` then `height` (the mapping's key order matching
the constructor's positional parameter order),
`fromJSON(Rectangle.prototype, getJSON(obj))` constructs a `Rectangle`
whose `getArea()` equals `width * height`, the same result as the
original's. -/
theorem fromJSON_getJSON_rectangle_roundtrip (w h : Int) :
    (fromJSON Rectangle.construct
      (getJSON ⟨[("width", w), ("height", h)]⟩)).map Rectangle.getArea =
      some (some (w * h)) := by
  rw [fromJSON]
  rw [jsonParse_getJSON ⟨[("width", w), ("height", h)]⟩ ?hq]
  case hq =>
    intro kv hkv
    simp only [List.mem_cons, List.not_mem_nil, or_false] at hkv
    rcases hkv with h1 | h1
    · subst h1
      exact (by decide : ('"' : Char) ∉ "width".data)
    · subst h1
      exact (by decide : ('"' : Char) ∉ "height".data)
  rfl

end CoreJs101
